/-
Verification development for the NBA pass-network analysis pipeline.

The repository builds a directed weighted graph from pass records
(build_network in visualize_pass_network.py, the same add_edge pattern in
nba_networks_fixed.py) and computes per-node centralities
(calculate_centralities in visualize_pass_network.py) through NetworkX:
weighted in/out degree, betweenness centrality with weight='weight',
and PageRank with weight='weight' and library defaults
(alpha = 0.85, tol = 1e-6, max_iter = 100).

This file gives a shallow embedding of that pipeline over exact rationals:
the graph is a list of directed weighted edges with last-write-wins
update, nodes are the endpoints in first-appearance order, betweenness is
the mathematical quantity the NetworkX call computes (fraction of weighted
shortest paths through a node, normalized by (n-1)(n-2) for directed
graphs with n > 2), and PageRank is the power iteration with uniform
start, uniform dangling redistribution, L1 convergence test against
N * tol, and a PowerIterationFailedConvergence error when the iteration
cap is exhausted.
-/
import Mathlib

set_option maxRecDepth 1000000

namespace PassNetwork

/-- One input record: a passer (PLAYER_NAME), a receiver (PASS_TO) and the
weight read from the selected weight column (AST in the main pipeline). -/
structure PassRecord where
  source : String
  target : String
  weight : ℚ
deriving DecidableEq

/-- A directed weighted edge of the built graph. -/
structure Edge where
  source : String
  target : String
  weight : ℚ
deriving DecidableEq

/-- The directed graph: the edge list in insertion order, at most one edge
per ordered (source, target) pair when built by `build_network`. -/
structure Graph where
  edges : List Edge
deriving DecidableEq

/-- Append an element to a list unless it is already present: the node
bookkeeping NetworkX performs when an edge is added. -/
def insertNew (l : List String) (x : String) : List String :=
  if x ∈ l then l else l ++ [x]

/-- Record both endpoints of an edge in the node list. -/
def nodeStep (acc : List String) (e : Edge) : List String :=
  insertNew (insertNew acc e.source) e.target

/-- The node list of a graph: edge endpoints in first-appearance order,
as NetworkX's insertion-ordered node view reports them. -/
def Graph.nodes (g : Graph) : List String :=
  g.edges.foldl nodeStep []

/-- G.add_edge(passer, receiver, weight=weight): if the ordered pair is
already present its stored weight is overwritten, otherwise the edge is
appended. -/
def Graph.addEdge (g : Graph) (s t : String) (w : ℚ) : Graph :=
  if g.edges.any (fun e => e.source = s ∧ e.target = t) then
    ⟨g.edges.map (fun e => if e.source = s ∧ e.target = t then ⟨s, t, w⟩ else e)⟩
  else
    ⟨g.edges ++ [⟨s, t, w⟩]⟩

/-- build_network: keep the records whose weight is at least min_weight
(df[df[weight_column] >= min_weight]) and add them in input order. -/
def build_network (records : List PassRecord) (min_weight : ℚ) : Graph :=
  (records.filter (fun r => min_weight ≤ r.weight)).foldl
    (fun g r => g.addEdge r.source r.target r.weight) ⟨[]⟩

/-- G.in_degree(weight='weight') at one node: total weight of incoming edges. -/
def in_degree (g : Graph) (n : String) : ℚ :=
  ((g.edges.filter (fun e => e.target = n)).map Edge.weight).sum

/-- G.out_degree(weight='weight') at one node: total weight of outgoing edges. -/
def out_degree (g : Graph) (n : String) : ℚ :=
  ((g.edges.filter (fun e => e.source = n)).map Edge.weight).sum

/-- The stored weight of the edge (s, t), if present. -/
def edgeWeight (g : Graph) (s t : String) : Option ℚ :=
  (g.edges.find? (fun e => e.source = s ∧ e.target = t)).map Edge.weight

/-- Distance of the edge (s, t) under a weight-to-distance transform `f`;
`none` means the edge is absent or excluded from shortest-path search. -/
def edgeDist (f : ℚ → Option ℚ) (g : Graph) (s t : String) : Option ℚ :=
  (edgeWeight g s t).bind f

/-- All simple paths from `u` to `t` along edges admitted by `f`, avoiding
`visited`; `fuel` bounds the number of nodes on a path. -/
def simplePathsAux (f : ℚ → Option ℚ) (g : Graph) :
    Nat → String → String → List String → List (List String)
  | 0, _, _, _ => []
  | fuel+1, u, t, visited =>
    if u = t then [[u]]
    else
      ((g.nodes.filter (fun v => (edgeDist f g u v).isSome ∧ v ∉ visited)).map
        (fun v => (simplePathsAux f g fuel v t (v :: visited)).map
          (fun p => u :: p))).flatten

/-- All simple paths from `s` to `t` (a simple path has at most as many
nodes as the graph). -/
def allPaths (f : ℚ → Option ℚ) (g : Graph) (s t : String) : List (List String) :=
  simplePathsAux f g g.nodes.length s t [s]

/-- Total distance of a path under the transform `f`. -/
def pathCost (f : ℚ → Option ℚ) (g : Graph) : List String → ℚ
  | u :: v :: rest => ((edgeDist f g u v).getD 0) + pathCost f g (v :: rest)
  | _ => 0

/-- The shortest-path distance from `s` to `t`, when `t` is reachable. -/
def minCost (f : ℚ → Option ℚ) (g : Graph) (s t : String) : Option ℚ :=
  match (allPaths f g s t).map (pathCost f g) with
  | [] => none
  | c :: cs => some (cs.foldl min c)

/-- The shortest paths from `s` to `t` (empty when `t` is unreachable). -/
def shortestPaths (f : ℚ → Option ℚ) (g : Graph) (s t : String) : List (List String) :=
  match minCost f g s t with
  | none => []
  | some d => (allPaths f g s t).filter (fun p => pathCost f g p = d)

/-- sigma(s, t): the number of shortest s-t paths. -/
def numShortest (f : ℚ → Option ℚ) (g : Graph) (s t : String) : Nat :=
  (shortestPaths f g s t).length

/-- sigma(s, t | v): the number of shortest s-t paths passing through `v`. -/
def numShortestThrough (f : ℚ → Option ℚ) (g : Graph) (s t v : String) : Nat :=
  ((shortestPaths f g s t).filter (fun p => v ∈ p)).length

/-- The pair dependency sigma(s, t | v) / sigma(s, t), 0 when `t` is
unreachable from `s`. -/
def pairDependency (f : ℚ → Option ℚ) (g : Graph) (v s t : String) : ℚ :=
  (numShortestThrough f g s t v : ℚ) / (numShortest f g s t : ℚ)

/-- The ordered pairs (s, t) with s, t and v pairwise distinct nodes:
the pairs whose dependencies accumulate into the betweenness of `v`. -/
def otherPairs (g : Graph) (v : String) : List (String × String) :=
  ((g.nodes.filter (fun s => s ≠ v)).map
    (fun s => (g.nodes.filter (fun t => t ≠ v ∧ t ≠ s)).map (fun t => (s, t)))).flatten

/-- Raw (unnormalized) betweenness of `v` under the distance transform `f`. -/
def betweennessOf (f : ℚ → Option ℚ) (g : Graph) (v : String) : ℚ :=
  ((otherPairs g v).map (fun p => pairDependency f g v p.1 p.2)).sum

/-- Betweenness with the NetworkX normalization for directed graphs:
divide by (n-1)(n-2) when n > 2, return the raw value otherwise. -/
def betweennessNorm (f : ℚ → Option ℚ) (g : Graph) (v : String) : ℚ :=
  if g.nodes.length ≤ 2 then betweennessOf f g v
  else betweennessOf f g v /
    (((g.nodes.length : ℚ) - 1) * ((g.nodes.length : ℚ) - 2))

/-- The transform the code applies: nx.betweenness_centrality(G,
weight='weight') feeds the stored weight directly to Dijkstra as the
edge distance. -/
def identityDistance : ℚ → Option ℚ := fun w => some w

/-- The transform claimed by the specification: distance = 1/weight for
weight > 0, weight-0 edges excluded from shortest-path consideration. -/
def reciprocalDistance : ℚ → Option ℚ := fun w => if 0 < w then some (1 / w) else none

/-- The betweenness computed by the centrality step:
nx.betweenness_centrality(G, weight='weight'), i.e. normalized directed
weighted betweenness under the identity distance transform. -/
def betweenness_centrality (g : Graph) (v : String) : ℚ :=
  betweennessNorm identityDistance g v

/-- The exception nx.pagerank raises when the power iteration exhausts
max_iter without the L1 change dropping below n * tol. -/
inductive NxError where
  | powerIterationFailedConvergence
deriving DecidableEq

/-- nx.pagerank default damping factor alpha = 0.85. -/
def dampingDefault : ℚ := 17/20

/-- nx.pagerank default convergence tolerance tol = 1e-6. -/
def tolDefault : ℚ := 1/1000000

/-- nx.pagerank default iteration cap max_iter = 100. -/
def maxIterDefault : Nat := 100

/-- One PageRank power-iteration step: every node keeps
(1-alpha)/n teleport mass, receives the alpha-damped rank its in-neighbors
redistribute in proportion to edge weight over their weighted out-degree,
and an equal share of the total rank held by dangling nodes (nodes with
weighted out-degree 0; an edge from a node of weighted out-degree 0
contributes nothing, matching the zeroed stochastic-matrix row). -/
def prStep (g : Graph) (alpha : ℚ) (x : String → ℚ) : String → ℚ := fun m =>
  let N : ℚ := (g.nodes.length : ℚ)
  let incoming : ℚ :=
    ((g.edges.filter (fun e => e.target = m)).map
      (fun e => x e.source * e.weight / out_degree g e.source)).sum
  let danglingMass : ℚ := ((g.nodes.filter (fun n => out_degree g n = 0)).map x).sum
  (1 - alpha) / N + alpha * (incoming + danglingMass / N)

/-- L1 distance between two rank vectors over the node list. -/
def l1Change (g : Graph) (x y : String → ℚ) : ℚ :=
  (g.nodes.map (fun n => |x n - y n|)).sum

/-- The nx.pagerank main loop: up to `fuel` iterations; after each step
return the new ranks if the L1 change is below n * tol, raise
PowerIterationFailedConvergence if the cap is exhausted. -/
def prLoop (g : Graph) (alpha tol : ℚ) :
    Nat → (String → ℚ) → Except NxError (List (String × ℚ))
  | 0, _ => .error .powerIterationFailedConvergence
  | fuel+1, x =>
    let xnew := prStep g alpha x
    if l1Change g xnew x < (g.nodes.length : ℚ) * tol then
      .ok (g.nodes.map (fun n => (n, xnew n)))
    else
      prLoop g alpha tol fuel xnew

/-- nx.pagerank(G, weight='weight') with library defaults: empty graph
gives an empty mapping, otherwise power iteration from the uniform vector
with alpha = 0.85, tol = 1e-6, max_iter = 100. -/
def pagerank (g : Graph) : Except NxError (List (String × ℚ)) :=
  if g.nodes.isEmpty then .ok []
  else prLoop g dampingDefault tolDefault maxIterDefault
    (fun _ => 1 / (g.nodes.length : ℚ))

/-- The PageRank procedure exactly as the specification words it
(claim C5): same power iteration, but stop when the L1 change falls
below the tolerance 1e-8 (compared directly, as stated). -/
def prLoopSpecC5 (g : Graph) (alpha eps : ℚ) :
    Nat → (String → ℚ) → Except NxError (List (String × ℚ))
  | 0, _ => .error .powerIterationFailedConvergence
  | fuel+1, x =>
    let xnew := prStep g alpha x
    if l1Change g xnew x < eps then
      .ok (g.nodes.map (fun n => (n, xnew n)))
    else
      prLoopSpecC5 g alpha eps fuel xnew

/-- The specification's version of pagerank for claim C5: damping 0.85,
tolerance 1e-8, at most 100 iterations. -/
def pagerankSpecC5 (g : Graph) : Except NxError (List (String × ℚ)) :=
  if g.nodes.isEmpty then .ok []
  else prLoopSpecC5 g (17/20) (1/100000000) 100 (fun _ => 1 / (g.nodes.length : ℚ))

instance {ε α : Type} [DecidableEq ε] [DecidableEq α] : DecidableEq (Except ε α) := fun x y =>
  match x, y with
  | .error a, .error b =>
    if h : a = b then isTrue (by rw [h]) else isFalse (by simp [h])
  | .ok a, .ok b =>
    if h : a = b then isTrue (by rw [h]) else isFalse (by simp [h])
  | .error _, .ok _ => isFalse (by simp)
  | .ok _, .error _ => isFalse (by simp)

/-- The four per-node metric mappings of calculate_centralities, in the
order the source builds them. -/
structure Centralities where
  degree_in : List (String × ℚ)
  degree_out : List (String × ℚ)
  betweenness : List (String × ℚ)
  pagerank_map : List (String × ℚ)
deriving DecidableEq

/-- One row of the df_centrality table built by calculate_centralities. -/
structure CentralityRow where
  joueur : String
  degre_entrant : ℚ
  degre_sortant : ℚ
  intermediarite : ℚ
  pagerank_val : ℚ
deriving DecidableEq

/-- Dictionary access centralities[...][n], as a lookup on an association
list (0 as a formal default; completeness is proved separately). -/
def lookupVal (l : List (String × ℚ)) (n : String) : ℚ :=
  ((l.find? (fun p => p.1 = n)).map Prod.snd).getD 0

/-- calculate_centralities: the four metric dictionaries (weighted
in-degree, weighted out-degree, betweenness, PageRank) and the per-player
table with one row per node; a PageRank non-convergence exception
propagates out of the call. -/
def calculate_centralities (g : Graph) :
    Except NxError (Centralities × List CentralityRow) :=
  match pagerank g with
  | .error e => .error e
  | .ok pr =>
    let cents : Centralities :=
      ⟨g.nodes.map (fun n => (n, in_degree g n)),
       g.nodes.map (fun n => (n, out_degree g n)),
       g.nodes.map (fun n => (n, betweenness_centrality g n)),
       pr⟩
    let rows : List CentralityRow :=
      g.nodes.map (fun n =>
        ⟨n, lookupVal cents.degree_in n, lookupVal cents.degree_out n,
         lookupVal cents.betweenness n, lookupVal cents.pagerank_map n⟩)
    .ok (cents, rows)

/-- Concrete three-node graph for claim C1: A→B and B→C of weight 1,
A→C of weight 3. -/
def gC1 : Graph := build_network
  [⟨"A", "B", 1⟩, ⟨"B", "C", 1⟩, ⟨"A", "C", 3⟩] 0

/-- Concrete two-node graph (with self-loops) for claim C5, chosen so the
power iteration contracts fast. -/
def gC5 : Graph := build_network
  [⟨"A", "A", 1⟩, ⟨"A", "B", 1⟩, ⟨"B", "A", 2⟩, ⟨"B", "B", 3⟩] 0

/-- Concrete graph with a negative total weight for claim C2: the power
iteration diverges, so the 100-iteration cap is reached unconverged. -/
def gC2 : Graph := build_network [⟨"A", "A", -3⟩, ⟨"A", "B", 4⟩] (-10)

/-- A second diverging graph, used to witness error propagation. -/
def gC2b : Graph := build_network [⟨"C", "C", -5⟩, ⟨"C", "D", 6⟩] (-10)

/-- One-node graph (a single self-loop) on which every metric is cheap to
evaluate; used by several witnesses. -/
def gOne : Graph := build_network [⟨"A", "A", 1⟩] 0

/-! ### Basic facts about node bookkeeping -/

theorem mem_insertNew {l : List String} {x y : String} :
    y ∈ insertNew l x ↔ y ∈ l ∨ y = x := by
  unfold insertNew
  split
  · constructor
    · exact Or.inl
    · rintro (hy | rfl)
      · exact hy
      · assumption
  · simp

theorem insertNew_nodup {l : List String} {x : String} (h : l.Nodup) :
    (insertNew l x).Nodup := by
  unfold insertNew
  split
  · exact h
  · simp_all [List.nodup_append]

theorem mem_foldl_nodeStep_of_mem {x : String} :
    ∀ (es : List Edge) (acc : List String), x ∈ acc → x ∈ es.foldl nodeStep acc := by
  intro es
  induction es with
  | nil => intro acc h; exact h
  | cons e es ih =>
    intro acc h
    exact ih (nodeStep acc e) (by simp [nodeStep, mem_insertNew, h])

theorem foldl_nodeStep_nodup :
    ∀ (es : List Edge) (acc : List String), acc.Nodup → (es.foldl nodeStep acc).Nodup := by
  intro es
  induction es with
  | nil => intro acc h; exact h
  | cons e es ih =>
    intro acc h
    exact ih (nodeStep acc e) (insertNew_nodup (insertNew_nodup h))

theorem endpoints_mem_foldl_nodeStep {e : Edge} :
    ∀ (es : List Edge) (acc : List String), e ∈ es →
      e.source ∈ es.foldl nodeStep acc ∧ e.target ∈ es.foldl nodeStep acc := by
  intro es
  induction es with
  | nil => intro acc h; cases h
  | cons e' es ih =>
    intro acc h
    rcases List.mem_cons.mp h with rfl | h
    · constructor
      · exact mem_foldl_nodeStep_of_mem es (nodeStep acc e)
          (by simp [nodeStep, mem_insertNew])
      · exact mem_foldl_nodeStep_of_mem es (nodeStep acc e)
          (by simp [nodeStep, mem_insertNew])
    · exact ih (nodeStep acc e') h

theorem nodes_nodup (g : Graph) : g.nodes.Nodup :=
  foldl_nodeStep_nodup g.edges [] List.nodup_nil

theorem source_mem_nodes {g : Graph} {e : Edge} (h : e ∈ g.edges) :
    e.source ∈ g.nodes :=
  (endpoints_mem_foldl_nodeStep g.edges [] h).1

theorem target_mem_nodes {g : Graph} {e : Edge} (h : e ∈ g.edges) :
    e.target ∈ g.nodes :=
  (endpoints_mem_foldl_nodeStep g.edges [] h).2

/-! ### Last-write-wins structure of addEdge and build_network -/

theorem find?_map_replace_self (s t : String) (w : ℚ) :
    ∀ es : List Edge, es.any (fun e => e.source = s ∧ e.target = t) = true →
      (es.map (fun e => if e.source = s ∧ e.target = t then Edge.mk s t w else e)).find?
          (fun e => e.source = s ∧ e.target = t)
        = some (Edge.mk s t w) := by
  intro es
  induction es with
  | nil => intro h; simp at h
  | cons e es ih =>
    intro h
    by_cases hm : e.source = s ∧ e.target = t
    · simp only [List.map_cons, if_pos hm]
      exact List.find?_cons_of_pos _ (by simp)
    · simp only [List.map_cons, if_neg hm]
      rw [List.find?_cons_of_neg _ (by simpa using hm)]
      refine ih ?_
      rcases List.any_eq_true.mp h with ⟨e', he', hp⟩
      rcases List.mem_cons.mp he' with rfl | he'
      · exact absurd (by simpa using hp) hm
      · exact List.any_eq_true.mpr ⟨e', he', hp⟩

theorem find?_map_replace_ne (s t s' t' : String) (w : ℚ)
    (h : ¬(s' = s ∧ t' = t)) :
    ∀ es : List Edge,
      (es.map (fun e => if e.source = s' ∧ e.target = t' then Edge.mk s' t' w else e)).find?
          (fun e => e.source = s ∧ e.target = t)
        = es.find? (fun e => e.source = s ∧ e.target = t) := by
  intro es
  induction es with
  | nil => simp
  | cons e es ih =>
    by_cases hm : e.source = s' ∧ e.target = t'
    · simp only [List.map_cons, if_pos hm]
      rw [List.find?_cons_of_neg _ (by simpa using h),
        List.find?_cons_of_neg _ (by
          simp only [Bool.not_eq_true, decide_eq_false_iff_not]
          rintro ⟨rfl, rfl⟩
          exact h ⟨hm.1.symm, hm.2.symm⟩), ih]
    · simp only [List.map_cons, if_neg hm]
      by_cases hp : e.source = s ∧ e.target = t
      · rw [List.find?_cons_of_pos _ (by simpa using hp),
          List.find?_cons_of_pos _ (by simpa using hp)]
      · rw [List.find?_cons_of_neg _ (by simpa using hp),
          List.find?_cons_of_neg _ (by simpa using hp), ih]

theorem edgeWeight_addEdge_self (g : Graph) (s t : String) (w : ℚ) :
    edgeWeight (g.addEdge s t w) s t = some w := by
  unfold edgeWeight Graph.addEdge
  split
  next hany =>
    rw [find?_map_replace_self s t w g.edges hany]
    rfl
  next hany =>
    rw [List.find?_append, List.find?_eq_none.mpr, Option.none_or]
    · rw [List.find?_cons_of_pos _ (by simp)]
      rfl
    · intro e he
      simp only [Bool.not_eq_true, decide_eq_false_iff_not]
      intro hc
      exact hany (List.any_eq_true.mpr ⟨e, he, by simpa using hc⟩)

theorem edgeWeight_addEdge_ne (g : Graph) (s t s' t' : String) (w : ℚ)
    (h : ¬(s' = s ∧ t' = t)) :
    edgeWeight (g.addEdge s' t' w) s t = edgeWeight g s t := by
  unfold edgeWeight Graph.addEdge
  split
  next =>
    rw [find?_map_replace_ne s t s' t' w h g.edges]
  next =>
    rw [List.find?_append, List.find?_cons_of_neg _ (by simpa using h)]
    simp

/-- The record-level predicate selecting the records that store into the
ordered pair (s, t). -/
def pairMatch (s t : String) (r : PassRecord) : Prop :=
  r.source = s ∧ r.target = t

instance (s t : String) (r : PassRecord) : Decidable (pairMatch s t r) :=
  inferInstanceAs (Decidable (And _ _))

theorem edgeWeight_foldl_addEdge (s t : String) :
    ∀ (rs : List PassRecord) (g : Graph),
      edgeWeight (rs.foldl (fun g r => g.addEdge r.source r.target r.weight) g) s t
        = ((rs.reverse.find? (fun r => pairMatch s t r)).map PassRecord.weight).or
            (edgeWeight g s t) := by
  intro rs
  induction rs with
  | nil => intro g; simp
  | cons r rs ih =>
    intro g
    rw [List.foldl_cons, ih, List.reverse_cons, List.find?_append]
    cases hfind : rs.reverse.find? (fun r => pairMatch s t r) with
    | some r' => simp
    | none =>
      simp only [Option.none_or]
      by_cases hp : pairMatch s t r
      · rw [List.find?_cons_of_pos _ (by simpa using hp)]
        rcases hp with ⟨rfl, rfl⟩
        rw [edgeWeight_addEdge_self]
        rfl
      · rw [List.find?_cons_of_neg _ (by simpa using hp)]
        rw [edgeWeight_addEdge_ne g _ _ _ _ _ (fun hc => hp ⟨hc.1, hc.2⟩)]
        rfl

/-! ### Self-loop behaviour of the builder -/

theorem addEdge_no_self_loops {g : Graph} {s t : String} {w : ℚ}
    (hg : ∀ e ∈ g.edges, e.source ≠ e.target) (hst : s ≠ t) :
    ∀ e ∈ (g.addEdge s t w).edges, e.source ≠ e.target := by
  intro e he
  unfold Graph.addEdge at he
  split at he
  · rcases List.mem_map.mp he with ⟨e', he', rfl⟩
    by_cases hm : e'.source = s ∧ e'.target = t
    · simpa [if_pos hm] using hst
    · simpa [if_neg hm] using hg e' he'
  · rcases List.mem_append.mp he with he | he
    · exact hg e he
    · rcases List.mem_singleton.mp he with rfl
      exact hst

theorem foldl_addEdge_no_self_loops :
    ∀ (rs : List PassRecord) (g : Graph),
      (∀ r ∈ rs, r.source ≠ r.target) →
      (∀ e ∈ g.edges, e.source ≠ e.target) →
      ∀ e ∈ (rs.foldl (fun g r => g.addEdge r.source r.target r.weight) g).edges,
        e.source ≠ e.target := by
  intro rs
  induction rs with
  | nil => intro g _ hg; exact hg
  | cons r rs ih =>
    intro g hrs hg
    exact ih (g.addEdge r.source r.target r.weight)
      (fun r' hr' => hrs r' (List.mem_cons_of_mem r hr'))
      (addEdge_no_self_loops hg (hrs r (List.mem_cons_self r rs)))

/-! ### Degree conservation -/

theorem list_sum_map_add {α : Type} (l : List α) (f g : α → ℚ) :
    (l.map (fun x => f x + g x)).sum = (l.map f).sum + (l.map g).sum := by
  induction l with
  | nil => simp
  | cons x l ih => simp [ih]; ring

theorem sum_map_ite_single :
    ∀ (ns : List String) (k : String) (c : ℚ), ns.Nodup → k ∈ ns →
      (ns.map (fun n => if k = n then c else 0)).sum = c := by
  intro ns
  induction ns with
  | nil => intro k c _ hk; cases hk
  | cons a ns ih =>
    intro k c hnd hk
    rcases List.mem_cons.mp hk with rfl | hk
    · simp only [List.map_cons, List.sum_cons, if_pos rfl]
      have hz : (ns.map (fun n => if k = n then c else 0)).sum = 0 :=
        List.sum_eq_zero (by
          intro x hx
          rcases List.mem_map.mp hx with ⟨n, hn, rfl⟩
          exact if_neg (by rintro rfl; exact (List.nodup_cons.mp hnd).1 hn))
      rw [hz, add_zero]
      simp
    · have hka : k ≠ a := fun h => (List.nodup_cons.mp hnd).1 (h ▸ hk)
      simp only [List.map_cons, List.sum_cons, if_neg hka, zero_add]
      exact ih k c (List.nodup_cons.mp hnd).2 hk

theorem sum_key_partition (key : Edge → String) :
    ∀ (es : List Edge) (ns : List String), ns.Nodup → (∀ e ∈ es, key e ∈ ns) →
      (ns.map (fun n => ((es.filter (fun e => key e = n)).map Edge.weight).sum)).sum
        = (es.map Edge.weight).sum := by
  intro es
  induction es with
  | nil => intro ns _ _; simp
  | cons e es ih =>
    intro ns hnd hmem
    have hrw : ∀ n ∈ ns,
        (((e :: es).filter (fun e' => key e' = n)).map Edge.weight).sum
          = (if key e = n then e.weight else 0)
            + ((es.filter (fun e' => key e' = n)).map Edge.weight).sum := by
      intro n _
      by_cases h : key e = n
      · simp [List.filter_cons, h]
      · simp [List.filter_cons, h]
    rw [List.map_congr_left hrw, list_sum_map_add,
      sum_map_ite_single ns (key e) e.weight hnd (hmem e (List.mem_cons_self e es)),
      ih ns hnd (fun e' he' => hmem e' (List.mem_cons_of_mem e he'))]
    simp

theorem graph_out_degree_sum (g : Graph) :
    (g.nodes.map (fun n => out_degree g n)).sum = (g.edges.map Edge.weight).sum :=
  sum_key_partition (fun e => e.source) g.edges g.nodes (nodes_nodup g)
    (fun _ he => source_mem_nodes he)

theorem graph_in_degree_sum (g : Graph) :
    (g.nodes.map (fun n => in_degree g n)).sum = (g.edges.map Edge.weight).sum :=
  sum_key_partition (fun e => e.target) g.edges g.nodes (nodes_nodup g)
    (fun _ he => target_mem_nodes he)

/-! ### Bounds on the normalized betweenness -/

theorem numShortestThrough_le_numShortest (f : ℚ → Option ℚ) (g : Graph) (s t v : String) :
    numShortestThrough f g s t v ≤ numShortest f g s t :=
  List.length_filter_le _ _

theorem pairDependency_nonneg (f : ℚ → Option ℚ) (g : Graph) (v s t : String) :
    0 ≤ pairDependency f g v s t :=
  div_nonneg (Nat.cast_nonneg _) (Nat.cast_nonneg _)

theorem pairDependency_le_one (f : ℚ → Option ℚ) (g : Graph) (v s t : String) :
    pairDependency f g v s t ≤ 1 := by
  unfold pairDependency
  rcases Nat.eq_zero_or_pos (numShortest f g s t) with h | h
  · rw [h, numShortestThrough]
    have : numShortestThrough f g s t v = 0 := Nat.le_zero.mp (h ▸ numShortestThrough_le_numShortest f g s t v)
    rw [← numShortestThrough, this]
    simp
  · rw [div_le_one (by exact_mod_cast h)]
    exact_mod_cast numShortestThrough_le_numShortest f g s t v

theorem mem_otherPairs {g : Graph} {v : String} {p : String × String} :
    p ∈ otherPairs g v ↔
      p.1 ∈ g.nodes ∧ p.2 ∈ g.nodes ∧ p.1 ≠ v ∧ p.2 ≠ v ∧ p.2 ≠ p.1 := by
  unfold otherPairs
  rw [List.mem_flatten]
  constructor
  · rintro ⟨l, hl, hp⟩
    rcases List.mem_map.mp hl with ⟨s, hs, rfl⟩
    rcases List.mem_map.mp hp with ⟨t, ht, rfl⟩
    rcases List.mem_filter.mp hs with ⟨hs1, hs2⟩
    rcases List.mem_filter.mp ht with ⟨ht1, ht2⟩
    simp only [decide_eq_true_eq] at hs2
    simp only [decide_eq_true_eq] at ht2
    exact ⟨hs1, ht1, hs2, ht2.1, ht2.2⟩
  · rintro ⟨h1, h2, h3, h4, h5⟩
    refine ⟨(g.nodes.filter (fun t => t ≠ v ∧ t ≠ p.1)).map (fun t => (p.1, t)), ?_, ?_⟩
    · exact List.mem_map.mpr ⟨p.1, List.mem_filter.mpr ⟨h1, by simpa using h3⟩, rfl⟩
    · exact List.mem_map.mpr ⟨p.2, List.mem_filter.mpr ⟨h2, by simp [h4, h5]⟩, rfl⟩

theorem length_filter_ne :
    ∀ (l : List String) (x : String), l.Nodup → x ∈ l →
      (l.filter (fun y => y ≠ x)).length = l.length - 1 := by
  intro l x
  induction l with
  | nil => intro _ h; cases h
  | cons a l ih =>
    intro hnd hm
    rcases List.mem_cons.mp hm with rfl | hm
    · have hself : l.filter (fun y => y ≠ x) = l :=
        List.filter_eq_self.mpr (fun y hy => by
          simp only [decide_eq_true_eq]
          exact fun h => (List.nodup_cons.mp hnd).1 (h ▸ hy))
      simp [List.filter_cons, hself]
      intro a ha h
      exact (List.nodup_cons.mp hnd).1 (h ▸ ha)
    · have hax : a ≠ x := fun h => (List.nodup_cons.mp hnd).1 (h ▸ hm)
      have hlen := List.length_pos.mpr (List.ne_nil_of_mem hm)
      have := ih (List.nodup_cons.mp hnd).2 hm
      simp only [List.filter_cons, decide_eq_true_eq]
      rw [if_pos hax]
      simp only [List.length_cons, this]
      omega

theorem filter_and_eq_filter_filter (l : List String) (v s : String) :
    l.filter (fun t => t ≠ v ∧ t ≠ s)
      = (l.filter (fun y => y ≠ v)).filter (fun y => y ≠ s) := by
  rw [List.filter_filter]
  apply List.filter_congr
  intro t _
  by_cases h1 : t = v <;> by_cases h2 : t = s <;> simp [h1, h2]

theorem list_sum_map_const_nat {α : Type} (l : List α) (c : ℕ) :
    (l.map (fun _ => c)).sum = l.length * c := by
  induction l with
  | nil => simp
  | cons x l ih =>
    simp only [List.map_cons, List.sum_cons, List.length_cons, ih]
    ring

theorem length_otherPairs {g : Graph} {v : String} (hv : v ∈ g.nodes) :
    (otherPairs g v).length = (g.nodes.length - 1) * (g.nodes.length - 2) := by
  unfold otherPairs
  rw [List.length_flatten, List.map_map]
  have hinner : ∀ s ∈ g.nodes.filter (fun s => s ≠ v),
      (List.length ∘ fun s => (g.nodes.filter (fun t => t ≠ v ∧ t ≠ s)).map (fun t => (s, t))) s
        = g.nodes.length - 2 := by
    intro s hs
    rcases List.mem_filter.mp hs with ⟨hs1, hs2⟩
    simp only [decide_eq_true_eq] at hs2
    simp only [Function.comp_apply, List.length_map]
    rw [filter_and_eq_filter_filter]
    rw [length_filter_ne _ s (List.Nodup.filter _ (nodes_nodup g))
        (List.mem_filter.mpr ⟨hs1, by simpa using hs2⟩),
      length_filter_ne _ v (nodes_nodup g) hv]
    omega
  rw [List.map_congr_left hinner, list_sum_map_const_nat,
    length_filter_ne _ v (nodes_nodup g) hv]

theorem betweennessOf_nonneg (f : ℚ → Option ℚ) (g : Graph) (v : String) :
    0 ≤ betweennessOf f g v := by
  unfold betweennessOf
  apply List.sum_nonneg
  intro x hx
  rcases List.mem_map.mp hx with ⟨p, _, rfl⟩
  exact pairDependency_nonneg f g v p.1 p.2

theorem betweennessOf_le_length (f : ℚ → Option ℚ) (g : Graph) (v : String) :
    betweennessOf f g v ≤ ((otherPairs g v).length : ℚ) := by
  unfold betweennessOf
  calc ((otherPairs g v).map (fun p => pairDependency f g v p.1 p.2)).sum
      ≤ ((otherPairs g v).map (fun p => pairDependency f g v p.1 p.2)).length • (1 : ℚ) := by
        apply List.sum_le_card_nsmul
        intro x hx
        rcases List.mem_map.mp hx with ⟨p, _, rfl⟩
        exact pairDependency_le_one f g v p.1 p.2
    _ = ((otherPairs g v).length : ℚ) := by
        rw [List.length_map, nsmul_eq_mul, mul_one]

theorem three_le_length_of_nodup {l : List String} {a b c : String}
    (_hnd : l.Nodup) (ha : a ∈ l) (hb : b ∈ l) (hc : c ∈ l)
    (hab : a ≠ b) (hac : a ≠ c) (hbc : b ≠ c) : 3 ≤ l.length := by
  classical
  have hsub : ({a, b, c} : Finset String) ⊆ l.toFinset := by
    intro x hx
    rw [List.mem_toFinset]
    rcases Finset.mem_insert.mp hx with rfl | hx
    · exact ha
    rcases Finset.mem_insert.mp hx with rfl | hx
    · exact hb
    rcases Finset.mem_singleton.mp hx with rfl
    exact hc
  have hcard : ({a, b, c} : Finset String).card = 3 := by
    rw [Finset.card_insert_of_not_mem (by simp [hab, hac]),
      Finset.card_insert_of_not_mem (by simp [hbc]), Finset.card_singleton]
  calc 3 = ({a, b, c} : Finset String).card := hcard.symm
    _ ≤ l.toFinset.card := Finset.card_le_card hsub
    _ ≤ l.length := l.toFinset_card_le

theorem otherPairs_eq_nil_of_small {g : Graph} {v : String}
    (hv : v ∈ g.nodes) (h2 : g.nodes.length ≤ 2) : otherPairs g v = [] := by
  rcases hop : otherPairs g v with _ | ⟨p, ps⟩
  · rfl
  · exfalso
    have hp : p ∈ otherPairs g v := by rw [hop]; exact List.mem_cons_self p ps
    rcases mem_otherPairs.mp hp with ⟨h1', h2', h3, h4, h5⟩
    have := three_le_length_of_nodup (nodes_nodup g) hv h1' h2'
      (Ne.symm h3) (Ne.symm h4) (Ne.symm h5)
    omega

theorem betweennessNorm_nonneg (f : ℚ → Option ℚ) (g : Graph) (v : String) :
    0 ≤ betweennessNorm f g v := by
  unfold betweennessNorm
  split
  · exact betweennessOf_nonneg f g v
  next h =>
    have h3 : 3 ≤ g.nodes.length := by omega
    apply div_nonneg (betweennessOf_nonneg f g v)
    have : (3 : ℚ) ≤ (g.nodes.length : ℚ) := by exact_mod_cast h3
    nlinarith

theorem betweennessNorm_le_one (f : ℚ → Option ℚ) (g : Graph) {v : String}
    (hv : v ∈ g.nodes) : betweennessNorm f g v ≤ 1 := by
  unfold betweennessNorm
  split
  next h2 =>
    have hnil := otherPairs_eq_nil_of_small hv h2
    unfold betweennessOf
    rw [hnil]
    simp
  next h2 =>
    have h3 : 3 ≤ g.nodes.length := by omega
    have hpos : (0 : ℚ) < ((g.nodes.length : ℚ) - 1) * ((g.nodes.length : ℚ) - 2) := by
      have : (3 : ℚ) ≤ (g.nodes.length : ℚ) := by exact_mod_cast h3
      nlinarith
    rw [div_le_one hpos]
    calc betweennessOf f g v ≤ ((otherPairs g v).length : ℚ) := betweennessOf_le_length f g v
      _ = (((g.nodes.length - 1) * (g.nodes.length - 2) : ℕ) : ℚ) := by
          rw [length_otherPairs hv]
      _ = ((g.nodes.length : ℚ) - 1) * ((g.nodes.length : ℚ) - 2) := by
          push_cast [Nat.cast_sub (by omega : 1 ≤ g.nodes.length),
            Nat.cast_sub (by omega : 2 ≤ g.nodes.length)]
          ring

/-! ### Structure of the PageRank loop -/

/-- The k-th PageRank power iterate starting from `x`. -/
def prIter (g : Graph) (alpha : ℚ) (x : String → ℚ) : Nat → (String → ℚ)
  | 0 => x
  | k+1 => prStep g alpha (prIter g alpha x k)

theorem prIter_shift (g : Graph) (alpha : ℚ) (x : String → ℚ) :
    ∀ k : Nat, prIter g alpha (prStep g alpha x) k = prIter g alpha x (k+1) := by
  intro k
  induction k with
  | zero => rfl
  | succ k ih => show prStep _ _ _ = _; rw [ih]; rfl

theorem prLoop_ok_char :
    ∀ (fuel : Nat) (g : Graph) (alpha tol : ℚ) (x : String → ℚ)
      (res : List (String × ℚ)),
      prLoop g alpha tol fuel x = .ok res →
      ∃ k, k < fuel
        ∧ res = g.nodes.map (fun n => (n, prIter g alpha x (k+1) n))
        ∧ l1Change g (prIter g alpha x (k+1)) (prIter g alpha x k)
            < (g.nodes.length : ℚ) * tol
        ∧ ∀ j, j < k →
            (g.nodes.length : ℚ) * tol
              ≤ l1Change g (prIter g alpha x (j+1)) (prIter g alpha x j) := by
  intro fuel
  induction fuel with
  | zero =>
    intro g alpha tol x res h
    exact absurd h (by simp [prLoop])
  | succ fuel ih =>
    intro g alpha tol x res h
    simp only [prLoop] at h
    by_cases hc : l1Change g (prStep g alpha x) x < (g.nodes.length : ℚ) * tol
    · rw [if_pos hc] at h
      injection h with h
      refine ⟨0, Nat.succ_pos fuel, h.symm, ?_, by omega⟩
      show l1Change g (prStep g alpha x) x < _
      exact hc
    · rw [if_neg hc] at h
      obtain ⟨k, hk, hres, hconv, hbefore⟩ := ih g alpha tol (prStep g alpha x) res h
      refine ⟨k+1, by omega, ?_, ?_, ?_⟩
      · rw [hres, prIter_shift]
      · rw [← prIter_shift g alpha x (k+1), ← prIter_shift g alpha x k]
        exact hconv
      · intro j hj
        cases j with
        | zero =>
          show _ ≤ l1Change g (prStep g alpha x) x
          exact not_lt.mp hc
        | succ j =>
          have hb := hbefore j (by omega)
          rw [prIter_shift, prIter_shift] at hb
          exact hb

theorem prLoop_ok_shape {fuel : Nat} {g : Graph} {alpha tol : ℚ} {x : String → ℚ}
    {res : List (String × ℚ)} (h : prLoop g alpha tol fuel x = .ok res) :
    ∃ y : String → ℚ, res = g.nodes.map (fun n => (n, y n)) := by
  obtain ⟨k, _, hres, _, _⟩ := prLoop_ok_char fuel g alpha tol x res h
  exact ⟨prIter g alpha x (k+1), hres⟩

theorem pagerank_ok_shape {g : Graph} {res : List (String × ℚ)}
    (h : pagerank g = .ok res) :
    ∃ y : String → ℚ, res = g.nodes.map (fun n => (n, y n)) := by
  unfold pagerank at h
  split at h
  next hemp =>
    injection h with h
    refine ⟨fun _ => 0, ?_⟩
    rw [← h, List.isEmpty_iff.mp hemp]
    rfl
  next => exact prLoop_ok_shape h

/-! ### Shape of a successful calculate_centralities call -/

theorem calculate_centralities_ok {g : Graph} {cents : Centralities}
    {rows : List CentralityRow}
    (h : calculate_centralities g = .ok (cents, rows)) :
    ∃ pr, pagerank g = .ok pr
      ∧ cents = ⟨g.nodes.map (fun n => (n, in_degree g n)),
                 g.nodes.map (fun n => (n, out_degree g n)),
                 g.nodes.map (fun n => (n, betweenness_centrality g n)),
                 pr⟩
      ∧ rows = g.nodes.map (fun n =>
          ⟨n, lookupVal cents.degree_in n, lookupVal cents.degree_out n,
           lookupVal cents.betweenness n, lookupVal cents.pagerank_map n⟩) := by
  unfold calculate_centralities at h
  cases hpr : pagerank g with
  | error e => rw [hpr] at h; cases h
  | ok pr =>
    rw [hpr] at h
    injection h with h
    obtain ⟨hc, hr⟩ := Prod.mk.injEq _ _ _ _ ▸ h
    refine ⟨pr, rfl, hc.symm, ?_⟩
    rw [← hr, ← hc]

theorem find?_map_pair_isSome {ns : List String} {f : String → ℚ} {n : String}
    (hn : n ∈ ns) :
    ((ns.map (fun m => (m, f m))).find? (fun p => p.1 = n)).isSome := by
  rw [List.find?_isSome]
  exact ⟨(n, f n), List.mem_map.mpr ⟨n, hn, rfl⟩, by simp⟩

/-! ### The claims -/

section Claims

attribute [local semireducible] Rat.add Rat.mul Rat.inv Rat.sub Rat.ofScientific

/-- Claim C1, counterexample: on the three-node graph A→B (1), B→C (1),
A→C (3) the centrality step's betweenness of B is 1/2 (the weight-2 path
A→B→C beats the direct weight-3 edge, because weights are used directly
as distances), while Brandes' betweenness under the reciprocal transform
claimed by the spec gives B the value 0; so the computed betweenness does
not equal the reciprocal-distance betweenness. -/
theorem C1_counterexample :
    betweenness_centrality gC1 "B" = 1/2
    ∧ betweennessNorm reciprocalDistance gC1 "B" = 0
    ∧ betweenness_centrality gC1 "B" ≠ betweennessNorm reciprocalDistance gC1 "B" :=
  ⟨by decide, by decide, by decide⟩

/-- Claim C1, amended: no reciprocal transform is applied; the betweenness
column computed by the centrality step equals Brandes' directed weighted
normalized betweenness with each edge weight used directly as its
shortest-path distance (and a weight-0 edge kept, at distance 0). -/
theorem C1_betweenness_uses_identity_distance :
    ∀ (g : Graph) (cents : Centralities) (rows : List CentralityRow),
      calculate_centralities g = .ok (cents, rows) →
      cents.betweenness
        = g.nodes.map (fun n => (n, betweennessNorm identityDistance g n)) := by
  intro g cents rows h
  obtain ⟨pr, _, hc, _⟩ := calculate_centralities_ok h
  rw [hc]
  rfl

/-- Witness for C1: the amended theorem applied to the one-node graph. -/
theorem C1_witness :
    (⟨[("A", 1)], [("A", 1)], [("A", 0)], [("A", 1)]⟩ : Centralities).betweenness
      = gOne.nodes.map (fun n => (n, betweennessNorm identityDistance gOne n)) :=
  C1_betweenness_uses_identity_distance gOne
    ⟨[("A", 1)], [("A", 1)], [("A", 0)], [("A", 1)]⟩
    [⟨"A", 1, 1, 0, 1⟩] (by decide)

/-- Claim C2, counterexample: on a graph whose power iteration diverges,
the 100-iteration cap is reached without convergence and
calculate_centralities returns the PowerIterationFailedConvergence
exception — it does not return partially-converged ranks with a warning. -/
theorem C2_counterexample :
    calculate_centralities gC2 = .error .powerIterationFailedConvergence := by
  decide

/-- Claim C2, amended: when PageRank reaches the iteration cap without the
rank change falling below the tolerance it raises
PowerIterationFailedConvergence, and calculate_centralities propagates
that exception to the caller instead of returning any ranks. -/
theorem C2_nonconvergence_raises :
    ∀ (g : Graph) (e : NxError), pagerank g = .error e →
      calculate_centralities g = .error e := by
  intro g e h
  unfold calculate_centralities
  rw [h]

/-- Witness for C2: the amended theorem applied to a diverging graph. -/
theorem C2_witness :
    calculate_centralities gC2b = .error .powerIterationFailedConvergence :=
  C2_nonconvergence_raises gC2b .powerIterationFailedConvergence (by decide)

/-- Claim C3: records are processed in input order and, for a fixed
ordered (source, target) pair, the weight the builder stores is exactly
the weight of the last accepted record for that pair (last-write-wins,
not summation); in particular two records on the same pair with weights
3 then 7 yield the single edge of weight 7. -/
theorem C3_last_write_wins :
    (∀ (records : List PassRecord) (min_weight : ℚ) (s t : String),
      edgeWeight (build_network records min_weight) s t
        = ((records.filter (fun r => min_weight ≤ r.weight)).reverse.find?
            (fun r => pairMatch s t r)).map PassRecord.weight)
    ∧ (build_network [⟨"A", "B", 3⟩, ⟨"A", "B", 7⟩] 0).edges = [⟨"A", "B", 7⟩] := by
  constructor
  · intro records mw s t
    unfold build_network
    rw [edgeWeight_foldl_addEdge]
    rw [show edgeWeight ⟨[]⟩ s t = none from rfl]
    exact Option.or_none
  · decide

/-- Claim C4, counterexample: the builder does not reject records whose
source equals their target — a single record A→A of weight 5 produces a
graph containing a self-loop edge. -/
theorem C4_counterexample :
    ¬ (∀ e ∈ (build_network [⟨"A", "A", 5⟩] 0).edges, e.source ≠ e.target) := by
  decide

/-- Claim C4, amended: the builder itself performs no self-loop
rejection (that filtering happens upstream in the cleaning step); the
built graph is self-loop-free exactly when the input records contain no
record with source equal to target. -/
theorem C4_no_self_loops_for_clean_input :
    ∀ (records : List PassRecord) (min_weight : ℚ),
      (∀ r ∈ records, r.source ≠ r.target) →
      ∀ e ∈ (build_network records min_weight).edges, e.source ≠ e.target := by
  intro records mw h
  refine foldl_addEdge_no_self_loops _ ⟨[]⟩ ?_ ?_
  · intro r hr
    exact h r (List.mem_filter.mp hr).1
  · intro e he
    cases he

/-- Witness for C4: the amended theorem applied to a one-record input
without self-pairs, at the single edge it builds. -/
theorem C4_witness :
    (Edge.mk "A" "B" 3).source ≠ (Edge.mk "A" "B" 3).target :=
  C4_no_self_loops_for_clean_input [⟨"A", "B", 3⟩] 0 (by decide)
    (Edge.mk "A" "B" 3) (by decide)

/-- Claim C5, counterexample: PageRank with the defaults the code uses
(tol = 1e-6, convergence test against n·tol) stops earlier than the
procedure described by the claim (tolerance 1e-8): on a concrete
two-node graph the two procedures return different rank vectors. -/
theorem C5_counterexample : pagerank gC5 ≠ pagerankSpecC5 gC5 := by
  decide

/-- Claim C5, amended: PageRank iterates with damping factor 0.85 until
the L1 change of the rank vector falls below n times the tolerance 1e-6
(not 1e-8), or 100 iterations have been performed, whichever happens
first: a successful run returns the first iterate whose L1 change from
its predecessor is below n·tol, and every earlier iterate's change was
at least n·tol. -/
theorem C5_stopping_rule :
    ∀ (g : Graph) (x : String → ℚ) (res : List (String × ℚ)),
      prLoop g dampingDefault tolDefault maxIterDefault x = .ok res →
      ∃ k, k < maxIterDefault
        ∧ res = g.nodes.map (fun n => (n, prIter g dampingDefault x (k+1) n))
        ∧ l1Change g (prIter g dampingDefault x (k+1)) (prIter g dampingDefault x k)
            < (g.nodes.length : ℚ) * tolDefault
        ∧ ∀ j, j < k →
            (g.nodes.length : ℚ) * tolDefault
              ≤ l1Change g (prIter g dampingDefault x (j+1))
                  (prIter g dampingDefault x j) :=
  fun g x res h => prLoop_ok_char maxIterDefault g dampingDefault tolDefault x res h

/-- Witness for C5: the stopping rule applied to the one-node graph,
which converges at the first iterate. -/
theorem C5_witness :
    ∃ k, k < maxIterDefault
      ∧ [("A", (1 : ℚ))]
          = gOne.nodes.map (fun n => (n, prIter gOne dampingDefault (fun _ => 1) (k+1) n))
      ∧ l1Change gOne (prIter gOne dampingDefault (fun _ => 1) (k+1))
            (prIter gOne dampingDefault (fun _ => 1) k)
          < (gOne.nodes.length : ℚ) * tolDefault
      ∧ ∀ j, j < k →
          (gOne.nodes.length : ℚ) * tolDefault
            ≤ l1Change gOne (prIter gOne dampingDefault (fun _ => 1) (j+1))
                (prIter gOne dampingDefault (fun _ => 1) j) :=
  C5_stopping_rule gOne (fun _ => 1) [("A", 1)] (by decide)

/-- Claim C6, counterexample: building from the empty record sequence
yields a graph with zero nodes (the true half of the claim), but the
centrality computation on that graph returns an ordinary empty result —
there is no EmptyGraphError anywhere, so it does not fail. -/
theorem C6_counterexample :
    (build_network [] 0).nodes = []
    ∧ calculate_centralities (build_network [] 0) = .ok (⟨[], [], [], []⟩, []) :=
  ⟨by decide, by decide⟩

/-- Claim C6, amended: build([]) yields a graph with zero nodes, and
calling the centrality computation on a zero-node graph does not raise
anything: it returns a result with four empty metric mappings and an
empty row table (the pipeline's main loop separately skips such graphs). -/
theorem C6_empty_graph_behaviour :
    ∀ min_weight : ℚ, (build_network [] min_weight).nodes = []
    ∧ ∀ g : Graph, g.nodes = [] →
        calculate_centralities g = .ok (⟨[], [], [], []⟩, []) := by
  intro mw
  constructor
  · rfl
  · intro g hg
    unfold calculate_centralities pagerank
    simp [hg]

/-- Witness for C6: the amended theorem applied to the graph built from
the empty record sequence. -/
theorem C6_witness :
    calculate_centralities (build_network [] 0) = .ok (⟨[], [], [], []⟩, []) :=
  (C6_empty_graph_behaviour 0).2 (build_network [] 0) (by decide)

/-- Claim C7: a record survives exactly when its weight is at least
min_weight (the comparison is inclusive at the threshold): an ordered
pair is an edge of the built graph precisely when some input record on
that pair has weight ≥ min_weight; and with min_weight = 5 and weights
2, 5, 9 on distinct pairs exactly the weight-5 and weight-9 edges
survive. -/
theorem C7_min_weight_threshold :
    (∀ (records : List PassRecord) (min_weight : ℚ) (s t : String),
      (edgeWeight (build_network records min_weight) s t).isSome
        ↔ ∃ r ∈ records, r.source = s ∧ r.target = t ∧ min_weight ≤ r.weight)
    ∧ (build_network [⟨"A", "B", 2⟩, ⟨"C", "D", 5⟩, ⟨"E", "F", 9⟩] 5).edges
        = [⟨"C", "D", 5⟩, ⟨"E", "F", 9⟩] := by
  constructor
  · intro records mw s t
    unfold build_network
    rw [edgeWeight_foldl_addEdge]
    rw [show edgeWeight ⟨[]⟩ s t = none from rfl, Option.or_none]
    rw [Option.isSome_map', List.find?_isSome]
    constructor
    · rintro ⟨r, hr, hp⟩
      rw [List.mem_reverse] at hr
      rcases List.mem_filter.mp hr with ⟨hr1, hr2⟩
      simp only [decide_eq_true_eq] at hr2 hp
      exact ⟨r, hr1, hp.1, hp.2, hr2⟩
    · rintro ⟨r, hr, hs, ht, hw⟩
      refine ⟨r, ?_, by simp [pairMatch, hs, ht]⟩
      rw [List.mem_reverse]
      exact List.mem_filter.mpr ⟨hr, by simpa using hw⟩
  · decide

/-- Claim C8: for every graph the builder produces, the sum over all
nodes of the weighted out-degree, the sum over all nodes of the weighted
in-degree, and the sum of all edge weights coincide. -/
theorem C8_degree_conservation :
    ∀ (records : List PassRecord) (min_weight : ℚ),
      ((build_network records min_weight).nodes.map
          (fun n => out_degree (build_network records min_weight) n)).sum
        = ((build_network records min_weight).edges.map Edge.weight).sum
      ∧ ((build_network records min_weight).nodes.map
          (fun n => in_degree (build_network records min_weight) n)).sum
        = ((build_network records min_weight).edges.map Edge.weight).sum :=
  fun records mw =>
    ⟨graph_out_degree_sum (build_network records mw),
     graph_in_degree_sum (build_network records mw)⟩

/-- Claim C9: every betweenness value in the mapping returned by the
centrality computation lies in [0, 1]: the per-node dependency sums are
normalized by (n-1)(n-2) for a directed graph on n > 2 nodes, and on
1 or 2 nodes the raw accumulation is 0. -/
theorem C9_betweenness_in_unit_interval :
    ∀ (g : Graph) (cents : Centralities) (rows : List CentralityRow),
      1 ≤ g.nodes.length →
      calculate_centralities g = .ok (cents, rows) →
      ∀ q ∈ cents.betweenness, 0 ≤ q.2 ∧ q.2 ≤ 1 := by
  intro g cents rows _ h q hq
  obtain ⟨pr, _, hc, _⟩ := calculate_centralities_ok h
  subst hc
  rcases List.mem_map.mp hq with ⟨n, hn, rfl⟩
  exact ⟨betweennessNorm_nonneg identityDistance g n,
    betweennessNorm_le_one identityDistance g hn⟩

/-- Witness for C9: the bound applied to the one-node graph, at its
single betweenness entry. -/
theorem C9_witness :
    0 ≤ (("A", (0 : ℚ))).2 ∧ (("A", (0 : ℚ))).2 ≤ 1 :=
  C9_betweenness_in_unit_interval gOne
    ⟨[("A", 1)], [("A", 1)], [("A", 0)], [("A", 1)]⟩
    [⟨"A", 1, 1, 0, 1⟩] (by decide) (by decide) ("A", 0) (by decide)

/-- Claim C10: on every graph with at least one node, a successful
centrality computation returns exactly one row per node (in node order,
and the node list has no duplicates), and none of the four metric
mappings misses any node. -/
theorem C10_complete_rows :
    ∀ (g : Graph) (cents : Centralities) (rows : List CentralityRow),
      1 ≤ g.nodes.length →
      calculate_centralities g = .ok (cents, rows) →
      g.nodes.Nodup
      ∧ rows.map (fun row => row.joueur) = g.nodes
      ∧ rows.length = g.nodes.length
      ∧ ∀ n ∈ g.nodes,
          (cents.degree_in.find? (fun p => p.1 = n)).isSome
          ∧ (cents.degree_out.find? (fun p => p.1 = n)).isSome
          ∧ (cents.betweenness.find? (fun p => p.1 = n)).isSome
          ∧ (cents.pagerank_map.find? (fun p => p.1 = n)).isSome := by
  intro g cents rows _ h
  obtain ⟨pr, hpr, hc, hr⟩ := calculate_centralities_ok h
  obtain ⟨y, hy⟩ := pagerank_ok_shape hpr
  subst hc
  refine ⟨nodes_nodup g, ?_, ?_, ?_⟩
  · rw [hr, List.map_map]
    show List.map (fun n => n) g.nodes = g.nodes
    simp
  · rw [hr, List.length_map]
  · intro n hn
    refine ⟨find?_map_pair_isSome hn, find?_map_pair_isSome hn,
      find?_map_pair_isSome hn, ?_⟩
    show ((pr.find? (fun p => p.1 = n)).isSome)
    rw [hy]
    exact find?_map_pair_isSome hn

/-- Witness for C10: the completeness statement applied to the one-node
graph. -/
theorem C10_witness :
    gOne.nodes.Nodup
    ∧ ([⟨"A", 1, 1, 0, 1⟩] : List CentralityRow).map (fun row => row.joueur) = gOne.nodes
    ∧ ([⟨"A", 1, 1, 0, 1⟩] : List CentralityRow).length = gOne.nodes.length
    ∧ ∀ n ∈ gOne.nodes,
        (([("A", (1 : ℚ))] : List (String × ℚ)).find? (fun p => p.1 = n)).isSome
        ∧ (([("A", (1 : ℚ))] : List (String × ℚ)).find? (fun p => p.1 = n)).isSome
        ∧ (([("A", (0 : ℚ))] : List (String × ℚ)).find? (fun p => p.1 = n)).isSome
        ∧ (([("A", (1 : ℚ))] : List (String × ℚ)).find? (fun p => p.1 = n)).isSome :=
  C10_complete_rows gOne
    ⟨[("A", 1)], [("A", 1)], [("A", 0)], [("A", 1)]⟩
    [⟨"A", 1, 1, 0, 1⟩] (by decide) (by decide)

end Claims

end PassNetwork
